import Mathlib

set_option maxHeartbeats 1000000
set_option maxRecDepth 40000

/-!
Verification development for `vivaldi_bookmarks_extractor.py`.

The JSON document handled by the extractor is embedded as the inductive type
`JVal` (strings, integers, arrays and ordered string-keyed objects; booleans,
floats and null do not occur in bookmark documents and are not modelled).
Python dictionaries are ordered association lists with distinct keys; `get`
is first-match lookup.  The traversal, root collection, CSV serialisation
and timestamp conversion are translated function by function below; prints
to stdout are collected as a log component, and file writes are represented
by the row table that would be serialised.
-/

inductive JVal where
| str : String → JVal
| int : Int → JVal
| arr : List JVal → JVal
| obj : List (String × JVal) → JVal

abbrev Record := List (String × JVal)

/-- First-match lookup in an ordered field list (Python `dict.get`). -/
def lookupField : List (String × JVal) → String → Option JVal
| [], _ => none
| (k, v) :: rest, key => if k = key then some v else lookupField rest key

/-- The fields of an object; a non-object has none (the source would raise
`AttributeError` on `.get` there, a case outside every bookmark document). -/
def fieldsOf : JVal → List (String × JVal)
| .obj fs => fs
| _ => []

def getField (node : JVal) (key : String) : Option JVal :=
  lookupField (fieldsOf node) key

/-- Python truthiness of the values that occur in a bookmark document:
empty strings, empty arrays, empty objects and zero are falsy. -/
def pyFalsy : JVal → Bool
| .str s => s = ""
| .int n => n = 0
| .arr xs => xs.isEmpty
| .obj fs => fs.isEmpty

mutual
/-- Python `repr` of a value, as `str()` renders list/dict containers.
Escape sequences inside strings are not modelled; no theorem depends on
the container cases (bookmark names and CSV cells are scalars). -/
def pyRepr : JVal → String
| .str s => "\x27" ++ s ++ "\x27"
| .int n => toString n
| .arr xs => "[" ++ pyReprArr xs ++ "]"
| .obj fs => "\x7b" ++ pyReprObj fs ++ "\x7d"
def pyReprArr : List JVal → String
| [] => ""
| [x] => pyRepr x
| x :: y :: rest => pyRepr x ++ ", " ++ pyReprArr (y :: rest)
def pyReprObj : List (String × JVal) → String
| [] => ""
| [(k, v)] => "\x27" ++ k ++ "\x27: " ++ pyRepr v
| (k, v) :: y :: rest => "\x27" ++ k ++ "\x27: " ++ pyRepr v ++ ", " ++ pyReprObj (y :: rest)
end

/-- Python `str()` as used by f-string interpolation and `csv` cell output. -/
def pyStr : JVal → String
| .str s => s
| v => pyRepr v

/-- `node.get(\x27type\x27) == t`: true exactly when the field holds the string `t`. -/
def nodeTypeIs (node : JVal) (t : String) : Bool :=
  match getField node "type" with
  | some (.str s) => s == t
  | _ => false

/-- `node.get(\x27name\x27, \x27Unnamed Folder\x27)` as interpolated into the path. -/
def folderName (node : JVal) : String :=
  match getField node "name" with
  | some v => pyStr v
  | none => "Unnamed Folder"

/-- `current_path = f"\x7bpath\x7d/\x7bname\x7d" if path else name`. -/
def extendPath (path : String) (node : JVal) : String :=
  if path = "" then folderName node else path ++ "/" ++ folderName node

/-- The five required fields of a bookmark record, in construction order. -/
def bookmarkBase (fs : List (String × JVal)) (path : String) : Record :=
  [("name", (lookupField fs "name").getD (.str "Unnamed Bookmark")),
   ("url", (lookupField fs "url").getD (.str "")),
   ("date_added", (lookupField fs "date_added").getD (.str "")),
   ("date_modified", (lookupField fs "date_modified").getD (.str "")),
   ("path", .str path)]

/-- `for key, value in node.items(): if key not in bookmark and key != \x27children\x27:
bookmark[key] = value` — append each new non-reserved key. -/
def addExtras (bookmark : Record) : List (String × JVal) → Record
| [] => bookmark
| (k, v) :: rest =>
    if (lookupField bookmark k).isNone && k ≠ "children" then
      addExtras (bookmark ++ [(k, v)]) rest
    else addExtras bookmark rest

def mkBookmark (fs : List (String × JVal)) (path : String) : Record :=
  addExtras (bookmarkBase fs path) fs

mutual
/-- `traverse_bookmarks(node, bookmarks_list, path)`; the returned list is the
final contents of the mutated accumulator.  A `children` value that is not a
sequence would raise uncaught in the source (no bookmark document has one);
it is modelled as an empty traversal. -/
def traverse_bookmarks (node : JVal) (bookmarks_list : List Record) (path : String) :
    List Record :=
  match node with
  | .obj fs =>
      if nodeTypeIs (.obj fs) "folder" then
        traverseFields fs bookmarks_list (extendPath path (.obj fs))
      else if nodeTypeIs (.obj fs) "url" then
        bookmarks_list ++ [mkBookmark fs path]
      else bookmarks_list
  | _ => bookmarks_list
/-- Walk the fields to the first `children` key (the unique one in a Python
dict) and traverse its elements; `node.get(\x27children\x27, [])` defaults to none. -/
def traverseFields (fs : List (String × JVal)) (acc : List Record) (path : String) :
    List Record :=
  match fs with
  | [] => acc
  | (k, v) :: rest =>
      if k = "children" then traverseChildrenVal v acc path
      else traverseFields rest acc path
/-- Traverse a `children` value: a sequence is iterated; anything else would
raise uncaught in the source and is modelled as the empty traversal. -/
def traverseChildrenVal (v : JVal) (acc : List Record) (path : String) : List Record :=
  match v with
  | .arr xs => traverseList xs acc path
  | _ => acc
/-- `for child in children: traverse_bookmarks(child, bookmarks_list, current_path)`. -/
def traverseList (xs : List JVal) (acc : List Record) (path : String) : List Record :=
  match xs with
  | [] => acc
  | x :: rest => traverseList rest (traverse_bookmarks x acc path) path
end

/-- The value `node.get(\x27children\x27, [])` effectively iterated over. -/
def childrenList (fs : List (String × JVal)) : List JVal :=
  match lookupField fs "children" with
  | some (.arr xs) => xs
  | _ => []

def rootMissingMsg (root_key : String) : String :=
  "No \x27" ++ root_key ++ "\x27 key found under \x27roots\x27."

/-- The starting path handed to the flattener:
`root.get(\x27name\x27, root_key)` (interpolated as a string downstream). -/
def rootStartPath (root : JVal) (root_key : String) : String :=
  match getField root "name" with
  | some v => pyStr v
  | none => root_key

/-- One iteration of the loop over root keys in `get_all_bookmarks`:
state is (accumulated records, printed diagnostics). -/
def rootStep (roots_data : JVal) (st : List Record × List String) (root_key : String) :
    List Record × List String :=
  let root := (getField roots_data root_key).getD (.obj [])
  if pyFalsy root then (st.1, st.2 ++ [rootMissingMsg root_key])
  else (traverse_bookmarks root st.1 (rootStartPath root root_key), st.2)

/-- `get_all_bookmarks(data)`: returns the record list plus the diagnostics
printed while collecting. -/
def get_all_bookmarks (data : JVal) : List Record × List String :=
  let roots_data := (getField data "roots").getD (.obj [])
  if pyFalsy roots_data then
    ([], ["No \x27roots\x27 key found in the bookmarks file."])
  else
    (["bookmark_bar", "other", "synced"]).foldl (rootStep roots_data) ([], [])

/-! ## CSV export (`export_to_csv`) -/

/-- Code-point lexicographic comparison, Python string `<=`. -/
def lexLe : List Char → List Char → Bool
| [], _ => true
| _ :: _, [] => false
| a :: as, b :: bs =>
    if a.toNat < b.toNat then true
    else if b.toNat < a.toNat then false
    else lexLe as bs

def strLe (a b : String) : Bool := lexLe a.data b.data

def insertSorted (x : String) : List String → List String
| [] => [x]
| y :: ys => if strLe x y then x :: y :: ys else y :: insertSorted x ys

/-- Insertion sort with `strLe`; on distinct keys this is the list produced by
Python `sorted`. -/
def sortStrings : List String → List String
| [] => []
| x :: xs => insertSorted x (sortStrings xs)

def recordKeys (bm : Record) : List String := bm.map Prod.fst

/-- `headers = sorted(set().union(*[bm.keys() ...]))`: the sorted union of
every key appearing in any record. -/
def csvHeaders (bookmarks : List Record) : List String :=
  sortStrings (bookmarks.flatMap recordKeys).dedup

/-- The cell `DictWriter` emits for record `bm` under column `h`:
the stringified value, or the empty rest-value when the key is missing. -/
def csvCell (bm : Record) (h : String) : String :=
  match lookupField bm h with
  | some v => pyStr v
  | none => ""

/-- Header row followed by one data row per record, in input order. -/
def csvTable (bookmarks : List Record) : List (List String) :=
  csvHeaders bookmarks :: bookmarks.map (fun bm => (csvHeaders bookmarks).map (csvCell bm))

/-- `export_to_csv(bookmarks, output_file)`: `none` models returning without
writing a file; the written table is the pre-escaping row/cell matrix (CSV
quoting sits below this abstraction).  The second component is the printed
diagnostic.  An unwritable destination is an I/O failure outside the model. -/
def export_to_csv (bookmarks : List Record) (output_file : String) :
    Option (List (List String)) × List String :=
  if bookmarks.isEmpty then (none, ["No bookmarks to export."])
  else (some (csvTable bookmarks),
        ["Bookmarks successfully exported to " ++ output_file])

/-! ## Timestamp decoding (`convert_webkit_timestamp`)

`int(webkit_timestamp)` parses a base-10 integer (ASCII whitespace stripped,
optional sign, single underscores allowed between digits; non-ASCII digits are
not modelled).  `timestamp_int / 1_000_000` is Python float division: the
binary64 value nearest the exact quotient, computed here exactly on scaled
integers (round to 53 significant bits, ties to even).  `timedelta(seconds=s)`
splits the float into integer seconds and a fractional part, multiplies the
fraction by `1e6` in binary64 and rounds half-to-even to whole microseconds.
`datetime(1601,1,1) + delta` raises `OverflowError` outside years 1..9999
(ordinals 1..3652059); any failure is caught and the raw string returned. -/

/-- Round `num/den` to the nearest integer, ties to even. -/
def rndHalfEven (num den : Nat) : Nat :=
  if 2 * (num % den) < den then num / den
  else if den < 2 * (num % den) then num / den + 1
  else if (num / den) % 2 = 0 then num / den else num / den + 1

/-- Fuelled floor-log2; exact whenever `x < 2 ^ fuel`. -/
def ilog2F : Nat → Nat → Nat
| 0, _ => 0
| fuel + 1, x => if 2 ≤ x then ilog2F fuel (x / 2) + 1 else 0

/-- Floor-log2 with fuel 4400, enough for every magnitude the float pipeline
can distinguish (beyond it only the overflow branch is reachable). -/
def ilog2 (x : Nat) : Nat := ilog2F 4400 x

/-- Floor of log2 of `a / 10^6` (the scale used by the source's division). -/
def ilogQ (a : Nat) : Int := (ilog2 (a * 2 ^ 1200 / 1000000) : Int) - 1200

/-- Binary64 division `a / 1_000_000` for `a ≥ 1`, as a dyadic pair:
the value is `m / 2^k` with `m` the 53-bit half-even rounded mantissa. -/
def floatDivMantExp (a : Nat) : Nat × Int :=
  let e := ilogQ a
  let k : Int := 52 - e
  if 0 ≤ k then (rndHalfEven (a * 2 ^ k.toNat) 1000000, k)
  else (rndHalfEven a (1000000 * 2 ^ (-k).toNat), k)

/-- The division overflows binary64 (raises `OverflowError`) when the rounded
value reaches `2^1024`. -/
def floatDivOverflows (mk : Nat × Int) : Bool :=
  if 0 ≤ 1024 + mk.2 then decide (2 ^ (1024 + mk.2).toNat ≤ mk.1) else true

/-- `math.modf` inside the timedelta constructor: split `m / 2^k` into its
integer part and the numerator of the fractional part over `2^k`. -/
def dySplit (m : Nat) (k : Int) : Nat × Nat :=
  if k ≤ 0 then (m * 2 ^ (-k).toNat, 0)
  else (m / 2 ^ k.toNat, m % 2 ^ k.toNat)

/-- Round the dyadic `r / 2^k` to 53 significant bits (the binary64 product
`fracpart * 1e6`); values with at most 53 bits are exact. -/
def roundD53 (r : Nat) (k : Int) : Nat × Int :=
  if r = 0 then (0, 0)
  else
    let d : Int := (ilog2 r : Int) - 52
    if 0 < d then (rndHalfEven r (2 ^ d.toNat), k - d)
    else (r, k)

/-- Round a dyadic to the nearest integer, ties to even (the timedelta
constructor's final microsecond rounding). -/
def dyRoundHE (rk : Nat × Int) : Nat :=
  if rk.2 ≤ 0 then rk.1 * 2 ^ (-rk.2).toNat
  else rndHalfEven rk.1 (2 ^ rk.2.toNat)

/-- Total microseconds of `timedelta(seconds=a/1e6)` for `a ≥ 1`, after the
float division, modf split, fraction-times-1e6 product and final rounding. -/
def absPipelineMicros (a : Nat) : Nat :=
  let mk := floatDivMantExp a
  let ip := (dySplit mk.1 mk.2).1
  let fr := (dySplit mk.1 mk.2).2
  ip * 1000000 + dyRoundHE (roundD53 (fr * 1000000) mk.2)

/-- Signed microsecond total of the timedelta, `none` on float overflow.
Negative seconds mirror the positive computation (modf truncates toward zero
and every rounding is symmetric). -/
def decodeMicros (n : Int) : Option Int :=
  if n = 0 then some 0
  else
    let a := n.natAbs
    let mk := floatDivMantExp a
    if floatDivOverflows mk then none
    else
      let t := absPipelineMicros a
      some (if n < 0 then -(t : Int) else (t : Int))

/-- Proleptic Gregorian date of `z` = days since 0001-01-01 (era algorithm). -/
def dateFromDays (z : Nat) : Nat × Nat × Nat :=
  let zs := z + 306
  let era := zs / 146097
  let doe := zs % 146097
  let yoe := (doe - doe / 1460 + doe / 36524 - doe / 146096) / 365
  let doy := doe - (365 * yoe + yoe / 4 - yoe / 100)
  let mp := (5 * doy + 2) / 153
  let d := doy - (153 * mp + 2) / 5 + 1
  let m := if mp < 10 then mp + 3 else mp - 9
  (if m ≤ 2 then yoe + era * 400 + 1 else yoe + era * 400, m, d)

def pad2 (n : Nat) : String := if n < 10 then "0" ++ toString n else toString n

def pad4 (n : Nat) : String :=
  if n < 10 then "000" ++ toString n
  else if n < 100 then "00" ++ toString n
  else if n < 1000 then "0" ++ toString n
  else toString n

/-- `strftime(\x27%Y-%m-%d %H:%M:%S\x27)` of the instant `total` microseconds
after 0001-01-01 00:00:00 (sub-second part dropped by the format).  `%Y` is
zero-padded to four digits; platform `strftime` varies for years before 1000,
which only a timestamp below -1.88e16 microseconds can reach. -/
def formatMicros (total : Nat) : String :=
  let day := total / 86400000000
  let sec := total % 86400000000 / 1000000
  let ymd := dateFromDays day
  pad4 ymd.1 ++ "-" ++ pad2 ymd.2.1 ++ "-" ++ pad2 ymd.2.2 ++ " " ++
    pad2 (sec / 3600) ++ ":" ++ pad2 (sec % 3600 / 60) ++ ":" ++ pad2 (sec % 60)

/-- Microseconds from 0001-01-01 to the 1601-01-01 epoch (ordinal 584389). -/
def epochShiftMicros : Nat := 584388 * 86400000000

/-- Exclusive bound: one day past ordinal 3652059 (9999-12-31). -/
def maxMicros : Nat := 3652059 * 86400000000

/-- `epoch_start + timedelta(...)` followed by `strftime`; `none` models the
`OverflowError` path (caught by the source, which then returns the input). -/
def webkitFormat (n : Int) : Option String :=
  match decodeMicros n with
  | none => none
  | some t =>
      let total : Int := (epochShiftMicros : Int) + t
      if 0 ≤ total ∧ total < (maxMicros : Int) then some (formatMicros total.toNat)
      else none

def isPySpace (c : Char) : Bool :=
  c.toNat = 32 || c.toNat = 9 || c.toNat = 10 || c.toNat = 13 ||
  c.toNat = 11 || c.toNat = 12

def isDigitCh (c : Char) : Bool := 48 ≤ c.toNat && c.toNat ≤ 57

def digitVal (c : Char) : Nat := c.toNat - 48

/-- Digits after the first one: a single underscore (code 95) may separate
two digits, as in Python's integer literal grammar for `int()`. -/
def parseDigitsRest : List Char → Nat → Option Nat
| [], acc => some acc
| c :: rest, acc =>
    if isDigitCh c then parseDigitsRest rest (acc * 10 + digitVal c)
    else if c.toNat = 95 then
      match rest with
      | c2 :: rest2 =>
          if isDigitCh c2 then parseDigitsRest rest2 (acc * 10 + digitVal c2)
          else none
      | [] => none
    else none

def parseDigits : List Char → Option Nat
| [] => none
| c :: rest => if isDigitCh c then parseDigitsRest rest (digitVal c) else none

/-- `int(s)` on the strings the pipeline feeds it: strip ASCII whitespace,
optional single `+` (code 43) or `-` (code 45), then an underscore-grouped
digit run; `none` models the `ValueError` path. -/
def pyParseInt (s : String) : Option Int :=
  let cs := ((s.data.dropWhile isPySpace).reverse.dropWhile isPySpace).reverse
  match cs with
  | [] => none
  | c :: rest =>
      if c.toNat = 43 then (parseDigits rest).map (fun v => (v : Int))
      else if c.toNat = 45 then (parseDigits rest).map (fun v => -(v : Int))
      else (parseDigits cs).map (fun v => (v : Int))

/-- `convert_webkit_timestamp(webkit_timestamp)`: decode or fall back to the
original string on any failure. -/
def convert_webkit_timestamp (webkit_timestamp : String) : String :=
  match pyParseInt webkit_timestamp with
  | none => webkit_timestamp
  | some n =>
      match webkitFormat n with
      | some s => s
      | none => webkit_timestamp

/-- The conversion as applied by `main` to a record field value: `int()` also
accepts an integer value unchanged; a container raises `TypeError`, caught, and
the original value is kept. -/
def convertValue (v : JVal) : JVal :=
  match v with
  | .str s => .str (convert_webkit_timestamp s)
  | .int n =>
      match webkitFormat n with
      | some s => .str s
      | none => .int n
  | v => v

/-- Python `bm[k] = v`: replace in place, else append. -/
def setKey : Record → String → JVal → Record
| [], k, v => [(k, v)]
| (k0, v0) :: rest, k, v =>
    if k0 = k then (k, v) :: rest else (k0, v0) :: setKey rest k v

/-- The two assignments `main` performs on each record, in order. -/
def convertTimestampsRecord (bm : Record) : Record :=
  let bm1 := setKey bm "date_added"
      (convertValue ((lookupField bm "date_added").getD (.str "")))
  setKey bm1 "date_modified"
      (convertValue ((lookupField bm1 "date_modified").getD (.str "")))

/-- `for bm in bookmarks: ...` — the timestamp pass of the pipeline. -/
def convertTimestamps (bookmarks : List Record) : List Record :=
  bookmarks.map convertTimestampsRecord

/-- Modelled from the spec: the date-time obtained by adding exactly
`n / 1_000_000` seconds to 1601-01-01T00:00:00, formatted as
`YYYY-MM-DD HH:MM:SS` (the format truncates the sub-second remainder). -/
def specDecodeExact (n : Int) : String :=
  formatMicros ((epochShiftMicros : Int) + n).toNat

/-- The records contributed by one root key of `get_all_bookmarks`, starting
from an empty accumulator. -/
def collectRoot (data : JVal) (root_key : String) : List Record :=
  let roots_data := (getField data "roots").getD (.obj [])
  let root := (getField roots_data root_key).getD (.obj [])
  if pyFalsy root then []
  else traverse_bookmarks root [] (rootStartPath root root_key)

/-- A document whose `bookmark_bar` root is the folder chain A > B > C with a
single url entry (fields `ufs`) inside C. -/
def chainNodeC (C : String) (ufs : List (String × JVal)) : JVal :=
  .obj [("name", .str C), ("type", .str "folder"), ("children", .arr [.obj ufs])]

def chainNodeB (B C : String) (ufs : List (String × JVal)) : JVal :=
  .obj [("name", .str B), ("type", .str "folder"), ("children", .arr [chainNodeC C ufs])]

def chainNodeA (A B C : String) (ufs : List (String × JVal)) : JVal :=
  .obj [("name", .str A), ("type", .str "folder"), ("children", .arr [chainNodeB B C ufs])]

def chainDoc (A B C : String) (ufs : List (String × JVal)) : JVal :=
  .obj [("roots", .obj [("bookmark_bar", chainNodeA A B C ufs)])]

/-! ## Traversal lemmas -/

theorem traverse_obj_eq (fs : List (String × JVal)) (acc : List Record) (path : String) :
    traverse_bookmarks (.obj fs) acc path =
      if nodeTypeIs (.obj fs) "folder" then
        traverseFields fs acc (extendPath path (.obj fs))
      else if nodeTypeIs (.obj fs) "url" then acc ++ [mkBookmark fs path]
      else acc := rfl

theorem traverseFields_nil (acc : List Record) (path : String) :
    traverseFields [] acc path = acc := rfl

theorem traverseFields_cons (k : String) (v : JVal) (rest : List (String × JVal))
    (acc : List Record) (path : String) :
    traverseFields ((k, v) :: rest) acc path =
      if k = "children" then traverseChildrenVal v acc path
      else traverseFields rest acc path := rfl

theorem traverseFields_skip (k : String) (v : JVal) (rest : List (String × JVal))
    (acc : List Record) (path : String) (hk : k ≠ "children") :
    traverseFields ((k, v) :: rest) acc path = traverseFields rest acc path := by
  rw [traverseFields_cons, if_neg hk]

theorem traverseChildrenVal_arr (xs : List JVal) (acc : List Record) (path : String) :
    traverseChildrenVal (.arr xs) acc path = traverseList xs acc path := rfl

theorem traverseList_nil (acc : List Record) (path : String) :
    traverseList [] acc path = acc := rfl

theorem traverseList_cons (x : JVal) (rest : List JVal) (acc : List Record) (path : String) :
    traverseList (x :: rest) acc path =
      traverseList rest (traverse_bookmarks x acc path) path := rfl

mutual
/-- The accumulator is only appended to: traversal of a node contributes a
suffix independent of what was already collected. -/
theorem traverse_bookmarks_acc (node : JVal) (acc : List Record) (path : String) :
    traverse_bookmarks node acc path = acc ++ traverse_bookmarks node [] path := by
  cases node with
  | str s => simp [traverse_bookmarks]
  | int n => simp [traverse_bookmarks]
  | arr xs => simp [traverse_bookmarks]
  | obj fs =>
      rw [traverse_obj_eq, traverse_obj_eq]
      by_cases h1 : nodeTypeIs (.obj fs) "folder" = true
      · simp only [h1, if_true]
        rw [traverseFields_acc fs acc, traverseFields_acc fs []]
      · by_cases h2 : nodeTypeIs (.obj fs) "url" = true
        · simp [h1, h2]
        · simp [h1, h2]
termination_by sizeOf node

theorem traverseFields_acc (fs : List (String × JVal)) (acc : List Record) (path : String) :
    traverseFields fs acc path = acc ++ traverseFields fs [] path := by
  cases fs with
  | nil => simp [traverseFields_nil]
  | cons kv rest =>
      obtain ⟨k, v⟩ := kv
      by_cases hk : k = "children"
      · subst hk
        rw [traverseFields_cons, traverseFields_cons, if_pos rfl, if_pos rfl]
        cases v with
        | arr xs =>
            rw [traverseChildrenVal_arr, traverseChildrenVal_arr]
            exact traverseList_acc xs acc path
        | str s => simp [traverseChildrenVal]
        | int n => simp [traverseChildrenVal]
        | obj gs => simp [traverseChildrenVal]
      · rw [traverseFields_skip _ _ _ _ _ hk, traverseFields_skip _ _ _ _ _ hk]
        exact traverseFields_acc rest acc path
termination_by sizeOf fs

theorem traverseList_acc (xs : List JVal) (acc : List Record) (path : String) :
    traverseList xs acc path = acc ++ traverseList xs [] path := by
  cases xs with
  | nil => simp [traverseList_nil]
  | cons x rest =>
      rw [traverseList_cons, traverseList_cons,
          traverseList_acc rest (traverse_bookmarks x acc path) path,
          traverse_bookmarks_acc x acc path,
          traverseList_acc rest (traverse_bookmarks x [] path) path]
      simp
termination_by sizeOf xs
end

/-- The field walk of a folder is exactly a traversal of
`node.get(\x27children\x27, [])`. -/
theorem traverseFields_eq_childrenList (fs : List (String × JVal)) (acc : List Record)
    (path : String) : traverseFields fs acc path = traverseList (childrenList fs) acc path := by
  induction fs with
  | nil => rfl
  | cons kv rest ih =>
      obtain ⟨k, v⟩ := kv
      by_cases hk : k = "children"
      · subst hk
        rw [traverseFields_cons, if_pos rfl]
        cases v with
        | arr xs => rfl
        | str s => rfl
        | int n => rfl
        | obj gs => rfl
      · rw [traverseFields_skip _ _ _ _ _ hk]
        rw [ih]
        have : childrenList ((k, v) :: rest) = childrenList rest := by
          simp [childrenList, lookupField, hk]
        rw [this]

/-- Traversing a child sequence appends the children's contributions in
document order. -/
theorem traverseList_flatMap (xs : List JVal) (acc : List Record) (path : String) :
    traverseList xs acc path =
      acc ++ xs.flatMap (fun x => traverse_bookmarks x [] path) := by
  induction xs generalizing acc with
  | nil => simp [traverseList_nil]
  | cons x rest ih =>
      rw [traverseList_cons, ih, traverse_bookmarks_acc]
      simp


theorem getField_obj (fs : List (String × JVal)) (k : String) :
    getField (.obj fs) k = lookupField fs k := rfl

theorem rootStep_records (roots_data : JVal) (st : List Record × List String)
    (root_key : String) :
    (rootStep roots_data st root_key).1 =
      st.1 ++ collectRoot (.obj [("roots", roots_data)]) root_key := by
  have hr : getField (JVal.obj [("roots", roots_data)]) "roots" = some roots_data := rfl
  simp only [rootStep, collectRoot, hr, Option.getD_some]
  by_cases h : pyFalsy ((getField roots_data root_key).getD (.obj [])) = true
  · simp [h]
  · rw [if_neg h, if_neg h]
    simp only []
    rw [traverse_bookmarks_acc]

/-- `get_all_bookmarks` is the concatenation of the three per-root
contributions, in the fixed key order. -/
theorem get_all_bookmarks_decomp (data : JVal) :
    (get_all_bookmarks data).1 =
      collectRoot data "bookmark_bar" ++ collectRoot data "other" ++
        collectRoot data "synced" := by
  have hcr : ∀ key, collectRoot (.obj [("roots", (getField data "roots").getD (.obj []))]) key =
      collectRoot data key := by
    intro key
    have hr : getField (JVal.obj [("roots", (getField data "roots").getD (.obj []))]) "roots" =
        some ((getField data "roots").getD (.obj [])) := rfl
    simp only [collectRoot, hr, Option.getD_some]
  simp only [get_all_bookmarks]
  by_cases h : pyFalsy ((getField data "roots").getD (.obj [])) = true
  · rw [if_pos h]
    have hroot : ∀ key, collectRoot data key = [] := by
      intro key
      simp only [collectRoot]
      cases hv : (getField data "roots").getD (.obj []) with
      | str s => simp [getField, fieldsOf, lookupField, pyFalsy]
      | int n => simp [getField, fieldsOf, lookupField, pyFalsy]
      | arr xs => simp [getField, fieldsOf, lookupField, pyFalsy]
      | obj fs =>
          rw [hv] at h
          have hfs : fs = [] := by simpa [pyFalsy, List.isEmpty_iff] using h
          subst hfs
          simp [getField, fieldsOf, lookupField, pyFalsy]
    simp [hroot]
  · rw [if_neg h]
    simp only [List.foldl_cons, List.foldl_nil]
    rw [rootStep_records, rootStep_records, rootStep_records, hcr, hcr, hcr]
    simp [List.append_assoc]

/-! ## Record construction lemmas -/

theorem lookupField_append_some (a b : List (String × JVal)) (k : String)
    (h : (lookupField a k).isSome = true) :
    lookupField (a ++ b) k = lookupField a k := by
  induction a with
  | nil => simp [lookupField] at h
  | cons kv rest ih =>
      obtain ⟨k0, v0⟩ := kv
      by_cases hk : k0 = k
      · simp [lookupField, hk]
      · simp only [lookupField, hk, if_false] at h
        simp only [List.cons_append, lookupField, hk, if_false]
        exact ih h

theorem lookupField_append_none (a b : List (String × JVal)) (k : String)
    (h : lookupField a k = none) :
    lookupField (a ++ b) k = lookupField b k := by
  induction a with
  | nil => simp
  | cons kv rest ih =>
      obtain ⟨k0, v0⟩ := kv
      by_cases hk : k0 = k
      · simp [lookupField, hk] at h
      · simp only [lookupField, hk, if_false] at h
        simp only [List.cons_append, lookupField, hk, if_false]
        exact ih h

theorem addExtras_cons_add (bm : Record) (k0 : String) (v0 : JVal)
    (rest : List (String × JVal)) (h1 : lookupField bm k0 = none) (h2 : k0 ≠ "children") :
    addExtras bm ((k0, v0) :: rest) = addExtras (bm ++ [(k0, v0)]) rest := by
  simp [addExtras, h1, h2]

theorem addExtras_cons_skip_some (bm : Record) (k0 : String) (v0 : JVal)
    (rest : List (String × JVal)) (h1 : (lookupField bm k0).isSome = true) :
    addExtras bm ((k0, v0) :: rest) = addExtras bm rest := by
  rcases hx : lookupField bm k0 with _ | w
  · rw [hx] at h1; simp at h1
  · simp [addExtras, hx]

theorem addExtras_cons_skip_children (bm : Record) (v0 : JVal)
    (rest : List (String × JVal)) :
    addExtras bm (("children", v0) :: rest) = addExtras bm rest := by
  simp [addExtras]

/-- A key already present in the record keeps its value across the
extra-field pass. -/
theorem addExtras_preserve (fs : List (String × JVal)) (bm : Record) (k : String)
    (h : (lookupField bm k).isSome = true) :
    lookupField (addExtras bm fs) k = lookupField bm k := by
  induction fs generalizing bm with
  | nil => rfl
  | cons kv rest ih =>
      obtain ⟨k0, v0⟩ := kv
      by_cases hc : k0 = "children"
      · subst hc
        rw [addExtras_cons_skip_children]
        exact ih bm h
      · rcases hx : lookupField bm k0 with _ | w
        · rw [addExtras_cons_add bm k0 v0 rest hx hc]
          rw [ih (bm ++ [(k0, v0)]) (by rw [lookupField_append_some bm _ k h]; exact h)]
          exact lookupField_append_some bm _ k h
        · rw [addExtras_cons_skip_some bm k0 v0 rest (by rw [hx]; rfl)]
          exact ih bm h

/-- The `children` key is never added by the extra-field pass. -/
theorem addExtras_children (fs : List (String × JVal)) (bm : Record) :
    lookupField (addExtras bm fs) "children" = lookupField bm "children" := by
  induction fs generalizing bm with
  | nil => rfl
  | cons kv rest ih =>
      obtain ⟨k0, v0⟩ := kv
      by_cases hc : k0 = "children"
      · subst hc
        rw [addExtras_cons_skip_children]
        exact ih bm
      · rcases hx : lookupField bm k0 with _ | w
        · rw [addExtras_cons_add bm k0 v0 rest hx hc]
          rw [ih (bm ++ [(k0, v0)])]
          rcases hy : lookupField bm "children" with _ | u
          · rw [lookupField_append_none bm _ _ hy]
            simp [lookupField, hc]
          · rw [lookupField_append_some bm _ _ (by rw [hy]; rfl), hy]
        · rw [addExtras_cons_skip_some bm k0 v0 rest (by rw [hx]; rfl)]
          exact ih bm

/-- A key absent from the record is copied from the node fields verbatim
(first occurrence), unless it is `children`. -/
theorem addExtras_new (fs : List (String × JVal)) (bm : Record) (k : String)
    (h : lookupField bm k = none) (hk : k ≠ "children") :
    lookupField (addExtras bm fs) k = lookupField fs k := by
  induction fs generalizing bm with
  | nil => rw [show addExtras bm [] = bm from rfl, h]; rfl
  | cons kv rest ih =>
      obtain ⟨k0, v0⟩ := kv
      by_cases hc : k0 = "children"
      · subst hc
        rw [addExtras_cons_skip_children]
        rw [ih bm h]
        have hck : ("children" : String) ≠ k := Ne.symm hk
        simp [lookupField, hck]
      · rcases hx : lookupField bm k0 with _ | w
        · rw [addExtras_cons_add bm k0 v0 rest hx hc]
          by_cases hkk : k0 = k
          · subst hkk
            have hsome : (lookupField (bm ++ [(k0, v0)]) k0).isSome = true := by
              rw [lookupField_append_none bm _ _ hx]
              simp [lookupField]
            rw [addExtras_preserve rest _ _ hsome,
                lookupField_append_none bm _ _ hx]
            simp [lookupField]
          · rw [ih (bm ++ [(k0, v0)])
                (by rw [lookupField_append_none bm _ _ h]; simp [lookupField, hkk])]
            simp [lookupField, hkk]
        · have hkk : k0 ≠ k := by
            intro hkk
            rw [hkk, h] at hx
            exact Option.noConfusion hx
          rw [addExtras_cons_skip_some bm k0 v0 rest (by rw [hx]; rfl)]
          rw [ih bm h]
          simp [lookupField, hkk]

/-- A node cannot satisfy two different `type` comparisons at once. -/
theorem nodeTypeIs_unique (fs : List (String × JVal)) (t1 t2 : String)
    (h1 : nodeTypeIs (.obj fs) t1 = true) (hne : t1 ≠ t2) :
    nodeTypeIs (.obj fs) t2 = false := by
  rcases hx : getField (JVal.obj fs) "type" with _ | v
  · simp [nodeTypeIs, hx] at h1
  · cases v with
    | str s =>
        have hs : s = t1 := by simpa [nodeTypeIs, hx] using h1
        subst hs
        simp [nodeTypeIs, hx, hne]
    | int n => simp [nodeTypeIs, hx] at h1
    | arr xs => simp [nodeTypeIs, hx] at h1
    | obj gs => simp [nodeTypeIs, hx] at h1

theorem setKey_lookup_other (bm : Record) (k : String) (v : JVal) (q : String)
    (h : q ≠ k) : lookupField (setKey bm k v) q = lookupField bm q := by
  induction bm with
  | nil => simp [setKey, lookupField, Ne.symm h]
  | cons kv rest ih =>
      obtain ⟨k0, v0⟩ := kv
      by_cases hk : k0 = k
      · subst hk
        simp [setKey, lookupField, Ne.symm h]
      · simp only [setKey, hk, if_false]
        simp only [lookupField]
        by_cases hq : k0 = q
        · simp [hq]
        · simp [hq, ih]

theorem append_slash_ne_empty (p q : String) : p ++ "/" ++ q ≠ "" := by
  intro h
  have hl := congrArg String.length h
  rw [String.length_append, String.length_append,
      show ("/" : String).length = 1 from rfl,
      show ("" : String).length = 0 from rfl] at hl
  omega

/-! ## Claim theorems -/

/-- Claim C2 (confirmed): a node with type `url` appends exactly one record:
`name` defaults to `Unnamed Bookmark`, `url` and the two dates default to the
empty string, `path` is stored exactly as received, every other key of the
node is copied verbatim, and `children` is never copied. -/
theorem claim_C2_url_record (fs : List (String × JVal)) (acc : List Record) (path : String)
    (hurl : nodeTypeIs (.obj fs) "url" = true) :
    traverse_bookmarks (.obj fs) acc path = acc ++ [mkBookmark fs path] ∧
    lookupField (mkBookmark fs path) "name" =
      some ((lookupField fs "name").getD (.str "Unnamed Bookmark")) ∧
    lookupField (mkBookmark fs path) "url" =
      some ((lookupField fs "url").getD (.str "")) ∧
    lookupField (mkBookmark fs path) "date_added" =
      some ((lookupField fs "date_added").getD (.str "")) ∧
    lookupField (mkBookmark fs path) "date_modified" =
      some ((lookupField fs "date_modified").getD (.str "")) ∧
    lookupField (mkBookmark fs path) "path" = some (.str path) ∧
    lookupField (mkBookmark fs path) "children" = none ∧
    (∀ k, k ≠ "name" → k ≠ "url" → k ≠ "date_added" → k ≠ "date_modified" →
      k ≠ "path" → k ≠ "children" →
      lookupField (mkBookmark fs path) k = lookupField fs k) := by
  have hfold : nodeTypeIs (.obj fs) "folder" = false :=
    nodeTypeIs_unique fs "url" "folder" hurl (by decide)
  refine ⟨?_, ?_, ?_, ?_, ?_, ?_, ?_, ?_⟩
  · rw [traverse_obj_eq]
    simp [hfold, hurl]
  · exact (addExtras_preserve fs (bookmarkBase fs path) "name" rfl).trans rfl
  · exact (addExtras_preserve fs (bookmarkBase fs path) "url" rfl).trans rfl
  · exact (addExtras_preserve fs (bookmarkBase fs path) "date_added" rfl).trans rfl
  · exact (addExtras_preserve fs (bookmarkBase fs path) "date_modified" rfl).trans rfl
  · exact (addExtras_preserve fs (bookmarkBase fs path) "path" rfl).trans rfl
  · exact (addExtras_children fs (bookmarkBase fs path)).trans rfl
  · intro k h1 h2 h3 h4 h5 h6
    refine addExtras_new fs (bookmarkBase fs path) k ?_ h6
    simp [bookmarkBase, lookupField, Ne.symm h1, Ne.symm h2, Ne.symm h3,
      Ne.symm h4, Ne.symm h5]

theorem claim_C2_witness :
    lookupField
      (mkBookmark [("type", .str "url"), ("tags", .str "x"),
                   ("children", .arr [.obj []]), ("name", .str "N")] "A/B") "tags" =
      some (.str "x") :=
  ((claim_C2_url_record [("type", .str "url"), ("tags", .str "x"),
      ("children", .arr [.obj []]), ("name", .str "N")] [] "A/B" rfl).2.2.2.2.2.2.2
    "tags" (by decide) (by decide) (by decide) (by decide) (by decide) (by decide)).trans rfl

/-- Claim C7 (confirmed): a node whose `type` is neither `folder` nor `url`
contributes nothing — no record, no recursion into its subtree, no error. -/
theorem claim_C7_unknown_type (fs : List (String × JVal)) (acc : List Record) (path : String)
    (hfold : nodeTypeIs (.obj fs) "folder" = false)
    (hurl : nodeTypeIs (.obj fs) "url" = false) :
    traverse_bookmarks (.obj fs) acc path = acc := by
  rw [traverse_obj_eq]
  simp [hfold, hurl]

theorem claim_C7_witness :
    traverse_bookmarks
      (.obj [("type", .str "separator"),
             ("children", .arr [.obj [("type", .str "url"), ("url", .str "u")]])])
      [] "p" = [] :=
  claim_C7_unknown_type _ [] "p" rfl rfl

/-- Claim C3 (confirmed): `get_all_bookmarks` returns the `bookmark_bar`
records, then `other`, then `synced`, and inside a folder the records follow
the order of the `children` sequence (depth-first document order). -/
theorem claim_C3_order :
    (∀ data : JVal, (get_all_bookmarks data).1 =
        collectRoot data "bookmark_bar" ++ collectRoot data "other" ++
          collectRoot data "synced") ∧
    (∀ (fs : List (String × JVal)) (path : String),
        nodeTypeIs (.obj fs) "folder" = true →
        traverse_bookmarks (.obj fs) [] path =
          (childrenList fs).flatMap
            (fun c => traverse_bookmarks c [] (extendPath path (.obj fs)))) := by
  constructor
  · exact get_all_bookmarks_decomp
  · intro fs path hf
    rw [traverse_obj_eq]
    simp only [hf, if_true]
    rw [traverseFields_eq_childrenList, traverseList_flatMap]
    simp

theorem claim_C3_witness :
    traverse_bookmarks
      (.obj [("type", .str "folder"),
             ("children", .arr [.obj [("type", .str "url"), ("url", .str "a")],
                                .obj [("type", .str "url"), ("url", .str "b")]])])
      [] "p" =
      (childrenList [("type", .str "folder"),
             ("children", .arr [.obj [("type", .str "url"), ("url", .str "a")],
                                .obj [("type", .str "url"), ("url", .str "b")]])]).flatMap
        (fun c => traverse_bookmarks c []
          (extendPath "p" (.obj [("type", .str "folder"),
             ("children", .arr [.obj [("type", .str "url"), ("url", .str "a")],
                                .obj [("type", .str "url"), ("url", .str "b")]])]))) :=
  claim_C3_order.2 _ "p" rfl

/-- Claim C10 (confirmed): a root key present with a falsy value is handled
exactly like an absent root: the same missing-root diagnostic is printed and
no records are contributed (the root is not traversed). -/
theorem claim_C10_falsy_root :
    (∀ (roots_data : JVal) (st : List Record × List String) (key : String) (v : JVal),
        getField roots_data key = some v → pyFalsy v = true →
        rootStep roots_data st key = (st.1, st.2 ++ [rootMissingMsg key])) ∧
    (∀ (roots_data : JVal) (st : List Record × List String) (key : String),
        getField roots_data key = none →
        rootStep roots_data st key = (st.1, st.2 ++ [rootMissingMsg key])) := by
  constructor
  · intro rd st key v hv hf
    simp [rootStep, hv, hf]
  · intro rd st key hv
    simp [rootStep, hv, pyFalsy]

theorem claim_C10_witness :
    rootStep (.obj [("bookmark_bar", .obj [])]) ([], []) "bookmark_bar" =
      ([], [rootMissingMsg "bookmark_bar"]) :=
  claim_C10_falsy_root.1 _ ([], []) "bookmark_bar" (.obj []) rfl rfl

/-- Claim C8 (confirmed): an absent or empty `roots` mapping yields the empty
record list after a diagnostic, and exporting an empty record list prints a
diagnostic and writes no file, raising no error. -/
theorem claim_C8_empty :
    (∀ dfs : List (String × JVal), lookupField dfs "roots" = none →
        get_all_bookmarks (.obj dfs) =
          ([], ["No \x27roots\x27 key found in the bookmarks file."])) ∧
    (∀ dfs : List (String × JVal), lookupField dfs "roots" = some (.obj []) →
        get_all_bookmarks (.obj dfs) =
          ([], ["No \x27roots\x27 key found in the bookmarks file."])) ∧
    (∀ output_file : String,
        export_to_csv [] output_file = (none, ["No bookmarks to export."])) := by
  refine ⟨?_, ?_, fun _ => rfl⟩
  · intro dfs h
    simp [get_all_bookmarks, getField_obj, h, pyFalsy]
  · intro dfs h
    simp [get_all_bookmarks, getField_obj, h, pyFalsy]

theorem claim_C8_witness :
    get_all_bookmarks (.obj [("version", .int 1)]) =
      ([], ["No \x27roots\x27 key found in the bookmarks file."]) :=
  claim_C8_empty.1 [("version", .int 1)] rfl

/-- Claim C9 (confirmed): the timestamp pass maps each record in place —
record count and order are preserved and only the `date_added` and
`date_modified` fields of a record can change. -/
theorem claim_C9_frame :
    (∀ bms : List Record, (convertTimestamps bms).length = bms.length) ∧
    (∀ (bms : List Record) (i : Nat),
        (convertTimestamps bms)[i]? = bms[i]?.map convertTimestampsRecord) ∧
    (∀ (bm : Record) (k : String), k ≠ "date_added" → k ≠ "date_modified" →
        lookupField (convertTimestampsRecord bm) k = lookupField bm k) := by
  refine ⟨?_, ?_, ?_⟩
  · intro bms
    simp [convertTimestamps]
  · intro bms i
    simp [convertTimestamps]
  · intro bm k h1 h2
    unfold convertTimestampsRecord
    rw [setKey_lookup_other _ _ _ _ h2, setKey_lookup_other _ _ _ _ h1]

theorem claim_C9_witness :
    lookupField
      (convertTimestampsRecord
        [("name", .str "N"), ("url", .str "u"), ("date_added", .str "0"),
         ("date_modified", .str ""), ("path", .str "p")]) "url" =
      some (.str "u") :=
  (claim_C9_frame.2.2
      [("name", .str "N"), ("url", .str "u"), ("date_added", .str "0"),
       ("date_modified", .str ""), ("path", .str "p")] "url"
      (by decide) (by decide)).trans rfl

/-- Claim C1 as stated is false on the code: the root folder node re-appends
its own name to the starting path (which was already initialised to that
name), so the entry's path is `A/A/B/C`, not `A/B/C`. -/
theorem claim_C1_counterexample :
    (get_all_bookmarks
        (chainDoc "A" "B" "C"
          [("type", .str "url"), ("name", .str "x"), ("url", .str "u")])).1 =
      [[("name", .str "x"), ("url", .str "u"), ("date_added", .str ""),
        ("date_modified", .str ""), ("path", .str "A/A/B/C"),
        ("type", .str "url")]] ∧
    ("A/A/B/C" : String) ≠ "A/B/C" := by
  constructor
  · rfl
  · decide

/-- One folder step in a single-child chain: the folder extends the non-empty
current path with `/` and its own name, then traverses its only child. -/
theorem traverse_chain_folder (name : String) (child : JVal) (path : String)
    (hpath : path ≠ "") :
    traverse_bookmarks
        (JVal.obj [("name", .str name), ("type", .str "folder"),
                   ("children", .arr [child])]) [] path =
      traverse_bookmarks child [] (path ++ "/" ++ name) := by
  rw [traverse_obj_eq]
  have ht : nodeTypeIs
      (JVal.obj [("name", JVal.str name), ("type", JVal.str "folder"),
                 ("children", JVal.arr [child])]) "folder" = true := rfl
  rw [if_pos ht]
  have he : extendPath path
      (JVal.obj [("name", JVal.str name), ("type", JVal.str "folder"),
                 ("children", JVal.arr [child])]) = path ++ "/" ++ name := by
    unfold extendPath
    rw [if_neg hpath]
    rfl
  rw [he]
  rfl

/-- Claim C1 (corrected): for the folder chain A > B > C rooted at
`bookmark_bar` (currentPath initialised to the root's name A), the url
entry's path is `A/A/B/C` — the root's name occurs twice because the folder
branch extends the path with its own name before recursing, and the starting
path already holds that name.  Nested folders extend with `/` plus their
name (no leading separator when the current path is empty), and the url leaf
stores the path exactly as received. -/
theorem claim_C1_amended (A B C : String) (ufs : List (String × JVal))
    (hA : A ≠ "") (hurl : nodeTypeIs (.obj ufs) "url" = true) :
    (get_all_bookmarks (chainDoc A B C ufs)).1 =
      [mkBookmark ufs (A ++ "/" ++ A ++ "/" ++ B ++ "/" ++ C)] ∧
    lookupField (mkBookmark ufs (A ++ "/" ++ A ++ "/" ++ B ++ "/" ++ C)) "path" =
      some (.str (A ++ "/" ++ A ++ "/" ++ B ++ "/" ++ C)) := by
  have hufold : nodeTypeIs (.obj ufs) "folder" = false :=
    nodeTypeIs_unique ufs "url" "folder" hurl (by decide)
  constructor
  · have hd : (get_all_bookmarks (chainDoc A B C ufs)).1 =
        collectRoot (chainDoc A B C ufs) "bookmark_bar" := by
      rw [get_all_bookmarks_decomp]
      rw [show collectRoot (chainDoc A B C ufs) "other" = [] from rfl,
          show collectRoot (chainDoc A B C ufs) "synced" = [] from rfl]
      simp
    rw [hd]
    rw [show collectRoot (chainDoc A B C ufs) "bookmark_bar" =
        traverse_bookmarks (chainNodeA A B C ufs) [] A from rfl]
    rw [show chainNodeA A B C ufs =
        JVal.obj [("name", .str A), ("type", .str "folder"),
          ("children", .arr [chainNodeB B C ufs])] from rfl]
    rw [traverse_chain_folder A (chainNodeB B C ufs) A hA]
    rw [show chainNodeB B C ufs =
        JVal.obj [("name", .str B), ("type", .str "folder"),
          ("children", .arr [chainNodeC C ufs])] from rfl]
    rw [traverse_chain_folder B (chainNodeC C ufs) (A ++ "/" ++ A)
        (append_slash_ne_empty A A)]
    rw [show chainNodeC C ufs =
        JVal.obj [("name", .str C), ("type", .str "folder"),
          ("children", .arr [.obj ufs])] from rfl]
    rw [traverse_chain_folder C (.obj ufs) (A ++ "/" ++ A ++ "/" ++ B)
        (append_slash_ne_empty (A ++ "/" ++ A) B)]
    rw [traverse_obj_eq]
    simp [hufold, hurl]
  · exact (addExtras_preserve ufs (bookmarkBase ufs _) "path" rfl).trans rfl

theorem claim_C1_amended_witness :
    (get_all_bookmarks
        (chainDoc "R" "B" "C" [("type", .str "url"), ("url", .str "u")])).1 =
      [mkBookmark [("type", .str "url"), ("url", .str "u")]
        ("R" ++ "/" ++ "R" ++ "/" ++ "B" ++ "/" ++ "C")] :=
  (claim_C1_amended "R" "B" "C" [("type", .str "url"), ("url", .str "u")]
    (by decide) rfl).1

/-! ## Sorting lemmas for the CSV header -/

theorem lexLe_refl : ∀ as : List Char, lexLe as as = true := by
  intro as
  induction as with
  | nil => rfl
  | cons a as ih => simp [lexLe, ih]

theorem lexLe_total : ∀ as bs : List Char, lexLe as bs = true ∨ lexLe bs as = true := by
  intro as
  induction as with
  | nil => intro bs; left; rfl
  | cons a as ih =>
      intro bs
      cases bs with
      | nil => right; rfl
      | cons b bs =>
          by_cases h1 : a.toNat < b.toNat
          · left; simp [lexLe, h1]
          · by_cases h2 : b.toNat < a.toNat
            · right; simp [lexLe, h2]
            · rcases ih bs with h | h
              · left; simp [lexLe, h1, h2, h]
              · right; simp [lexLe, h1, h2, h]

theorem lexLe_trans : ∀ as bs cs : List Char,
    lexLe as bs = true → lexLe bs cs = true → lexLe as cs = true := by
  intro as
  induction as with
  | nil => intro bs cs h1 h2; rfl
  | cons a as ih =>
      intro bs cs h1 h2
      cases bs with
      | nil => simp [lexLe] at h1
      | cons b bs =>
          cases cs with
          | nil => simp [lexLe] at h2
          | cons c cs =>
              by_cases hab : a.toNat < b.toNat
              · by_cases hbc : b.toNat < c.toNat
                · simp [lexLe, show a.toNat < c.toNat by omega]
                · by_cases hcb : c.toNat < b.toNat
                  · simp [lexLe, hbc, hcb] at h2
                  · simp [lexLe, show a.toNat < c.toNat by omega]
              · by_cases hba : b.toNat < a.toNat
                · simp [lexLe, hab, hba] at h1
                · by_cases hbc : b.toNat < c.toNat
                  · simp [lexLe, show a.toNat < c.toNat by omega]
                  · by_cases hcb : c.toNat < b.toNat
                    · simp [lexLe, hbc, hcb] at h2
                    · have hr1 : lexLe as bs = true := by
                        simpa [lexLe, hab, hba] using h1
                      have hr2 : lexLe bs cs = true := by
                        simpa [lexLe, hbc, hcb] using h2
                      have hac1 : ¬ a.toNat < c.toNat := by omega
                      have hac2 : ¬ c.toNat < a.toNat := by omega
                      simp [lexLe, hac1, hac2, ih bs cs hr1 hr2]

theorem strLe_total (a b : String) : strLe a b = true ∨ strLe b a = true :=
  lexLe_total a.data b.data

theorem strLe_trans (a b c : String) (h1 : strLe a b = true) (h2 : strLe b c = true) :
    strLe a c = true :=
  lexLe_trans a.data b.data c.data h1 h2

theorem insertSorted_mem (x : String) (l : List String) (y : String) :
    y ∈ insertSorted x l ↔ y = x ∨ y ∈ l := by
  induction l with
  | nil => simp [insertSorted]
  | cons z zs ih =>
      by_cases hxz : strLe x z = true
      · simp only [insertSorted, hxz, if_true]
        constructor
        · intro h
          rcases List.mem_cons.mp h with h | h
          · left; exact h
          · right; exact h
        · intro h
          rcases h with h | h
          · exact List.mem_cons.mpr (Or.inl h)
          · exact List.mem_cons.mpr (Or.inr h)
      · simp only [insertSorted, hxz, if_false]
        constructor
        · intro h
          rcases List.mem_cons.mp h with h | h
          · right; exact List.mem_cons.mpr (Or.inl h)
          · rcases (ih.mp h) with h | h
            · left; exact h
            · right; exact List.mem_cons.mpr (Or.inr h)
        · intro h
          rcases h with h | h
          · exact List.mem_cons.mpr (Or.inr (ih.mpr (Or.inl h)))
          · rcases List.mem_cons.mp h with h | h
            · exact List.mem_cons.mpr (Or.inl h)
            · exact List.mem_cons.mpr (Or.inr (ih.mpr (Or.inr h)))

theorem insertSorted_pairwise (x : String) (l : List String)
    (h : List.Pairwise (fun a b => strLe a b = true) l) :
    List.Pairwise (fun a b => strLe a b = true) (insertSorted x l) := by
  induction l with
  | nil => simp [insertSorted]
  | cons y ys ih =>
      rcases List.pairwise_cons.mp h with ⟨hy, hys⟩
      by_cases hxy : strLe x y = true
      · simp only [insertSorted, hxy, if_true]
        refine List.pairwise_cons.mpr ⟨?_, h⟩
        intro z hz
        rcases List.mem_cons.mp hz with rfl | hz
        · exact hxy
        · exact strLe_trans x y z hxy (hy z hz)
      · simp only [insertSorted, hxy, if_false]
        refine List.pairwise_cons.mpr ⟨?_, ih hys⟩
        intro z hz
        rcases (insertSorted_mem x ys z).mp hz with hzx | hz
        · rw [hzx]
          rcases strLe_total x y with hh | hh
          · exact absurd hh hxy
          · exact hh
        · exact hy z hz

theorem insertSorted_nodup (x : String) (l : List String) (hx : x ∉ l)
    (h : l.Nodup) : (insertSorted x l).Nodup := by
  induction l with
  | nil => simp [insertSorted]
  | cons y ys ih =>
      rcases List.nodup_cons.mp h with ⟨hy, hys⟩
      by_cases hxy : strLe x y = true
      · simp only [insertSorted, hxy, if_true]
        refine List.nodup_cons.mpr ⟨?_, h⟩
        intro hmem
        exact hx hmem
      · simp only [insertSorted, hxy, if_false]
        refine List.nodup_cons.mpr ⟨?_, ih (fun hh => hx (List.mem_cons.mpr (Or.inr hh))) hys⟩
        intro hmem
        rcases (insertSorted_mem x ys y).mp hmem with rfl | hmem
        · exact hx (List.mem_cons.mpr (Or.inl rfl))
        · exact hy hmem

theorem sortStrings_mem (l : List String) (y : String) :
    y ∈ sortStrings l ↔ y ∈ l := by
  induction l with
  | nil => simp [sortStrings]
  | cons x xs ih =>
      simp only [sortStrings]
      rw [insertSorted_mem]
      rw [ih]
      constructor
      · intro h
        rcases h with h | h
        · exact List.mem_cons.mpr (Or.inl h)
        · exact List.mem_cons.mpr (Or.inr h)
      · intro h
        rcases List.mem_cons.mp h with h | h
        · exact Or.inl h
        · exact Or.inr h

theorem sortStrings_pairwise (l : List String) :
    List.Pairwise (fun a b => strLe a b = true) (sortStrings l) := by
  induction l with
  | nil => simp [sortStrings]
  | cons x xs ih => exact insertSorted_pairwise x (sortStrings xs) ih

theorem sortStrings_nodup (l : List String) (h : l.Nodup) : (sortStrings l).Nodup := by
  induction l with
  | nil => simp [sortStrings]
  | cons x xs ih =>
      rcases List.nodup_cons.mp h with ⟨hx, hxs⟩
      exact insertSorted_nodup x (sortStrings xs)
        (fun hh => hx ((sortStrings_mem xs x).mp hh)) (ih hxs)

/-- Claim C6 (confirmed): for a non-empty record list the exporter writes the
sorted (code-point lexicographic, case-sensitive) union of all record keys as
the header, then one data row per record in input order; a record missing a
column contributes an empty cell there. -/
theorem claim_C6_export (bms : List Record) (output_file : String) (hne : bms ≠ []) :
    export_to_csv bms output_file =
      (some (csvTable bms),
       ["Bookmarks successfully exported to " ++ output_file]) ∧
    (∀ k, k ∈ csvHeaders bms ↔ ∃ bm ∈ bms, k ∈ recordKeys bm) ∧
    List.Pairwise (fun a b => strLe a b = true) (csvHeaders bms) ∧
    (csvHeaders bms).Nodup ∧
    csvTable bms =
      csvHeaders bms :: bms.map (fun bm => (csvHeaders bms).map (csvCell bm)) ∧
    (∀ (bm : Record) (k : String), lookupField bm k = none → csvCell bm k = "") := by
  refine ⟨?_, ?_, ?_, ?_, rfl, ?_⟩
  · simp [export_to_csv, hne]
  · intro k
    simp only [csvHeaders]
    rw [sortStrings_mem, List.mem_dedup, List.mem_flatMap]
  · exact sortStrings_pairwise _
  · exact sortStrings_nodup _ (List.nodup_dedup _)
  · intro bm k h
    simp [csvCell, h]

theorem claim_C6_witness :
    export_to_csv [[("a", .int 1), ("b", .int 2)], [("a", .int 3), ("c", .int 4)]]
        "out.csv" =
      (some [["a", "b", "c"], ["1", "2", ""], ["3", "", "4"]],
       ["Bookmarks successfully exported to out.csv"]) :=
  ((claim_C6_export [[("a", .int 1), ("b", .int 2)], [("a", .int 3), ("c", .int 4)]]
      "out.csv" (List.cons_ne_nil _ _)).1).trans rfl

/-! ## Timestamp decoder lemmas -/

theorem ilog2F_spec : ∀ (fuel x : ℕ), 0 < x → x < 2 ^ fuel →
    2 ^ ilog2F fuel x ≤ x ∧ x < 2 ^ (ilog2F fuel x + 1) := by
  intro fuel
  induction fuel with
  | zero =>
      intro x h1 h2
      simp only [pow_zero] at h2
      omega
  | succ fuel ih =>
      intro x h1 h2
      by_cases h : 2 ≤ x
      · have hx2 : 0 < x / 2 := by omega
        have hx2' : x / 2 < 2 ^ fuel := by
          rw [pow_succ] at h2
          omega
        rcases ih (x / 2) hx2 hx2' with ⟨ha, hb⟩
        have heq : ilog2F (fuel + 1) x = ilog2F fuel (x / 2) + 1 := by
          simp [ilog2F, h]
        rw [heq]
        constructor
        · rw [pow_succ]
          omega
        · rw [pow_succ]
          rw [pow_succ] at hb
          omega
      · have hx1 : x = 1 := by omega
        subst hx1
        simp [ilog2F]

theorem ilog2_spec (x : ℕ) (h1 : 0 < x) (h2 : x < 2 ^ 4400) :
    2 ^ ilog2 x ≤ x ∧ x < 2 ^ (ilog2 x + 1) :=
  ilog2F_spec 4400 x h1 h2

/-- The half-even rounding differs from the exact quotient by at most 1/2:
`|2 * rndHalfEven num den * den - 2 * num| ≤ den`, stated as two
inequalities over ℤ. -/
theorem rndHalfEven_bounds (num den : ℕ) (hden : 0 < den) :
    (2 * num : ℤ) ≤ 2 * (rndHalfEven num den) * den + den ∧
    (2 * (rndHalfEven num den) * den : ℤ) ≤ 2 * num + den := by
  have hdm : den * (num / den) + num % den = num := Nat.div_add_mod num den
  have hdmz : (den : ℤ) * (num / den : ℕ) + (num % den : ℕ) = (num : ℤ) := by
    exact_mod_cast hdm
  have hr : num % den < den := Nat.mod_lt _ hden
  have hrz : ((num % den : ℕ) : ℤ) < den := by exact_mod_cast hr
  unfold rndHalfEven
  by_cases h1 : 2 * (num % den) < den
  · rw [if_pos h1]
    have h1z : 2 * ((num % den : ℕ) : ℤ) < den := by exact_mod_cast h1
    constructor <;> (try simp only [Nat.cast_add, Nat.cast_one]) <;> nlinarith [hdmz, hrz]
  · rw [if_neg h1]
    by_cases h2 : den < 2 * (num % den)
    · rw [if_pos h2]
      have h2z : (den : ℤ) < 2 * ((num % den : ℕ) : ℤ) := by exact_mod_cast h2
      constructor <;> (try simp only [Nat.cast_add, Nat.cast_one]) <;> nlinarith [hdmz, hrz]
    · rw [if_neg h2]
      have htie : 2 * (num % den) = den := by omega
      have htiez : 2 * ((num % den : ℕ) : ℤ) = den := by exact_mod_cast htie
      by_cases h3 : (num / den) % 2 = 0
      · rw [if_pos h3]
        constructor <;> (try simp only [Nat.cast_add, Nat.cast_one]) <;> nlinarith [hdmz, hrz]
      · rw [if_neg h3]
        constructor <;> (try simp only [Nat.cast_add, Nat.cast_one]) <;> nlinarith [hdmz, hrz]

theorem floatDivMantExp_eq (a L : ℕ) (hL : ilog2 (a * 2 ^ 1200 / 1000000) = L)
    (hle : L ≤ 1252) :
    floatDivMantExp a =
      (rndHalfEven (a * 2 ^ (1252 - L)) 1000000, ((1252 - L : ℕ) : ℤ)) := by
  have hq : ilogQ a = (L : ℤ) - 1200 := by
    unfold ilogQ
    rw [hL]
  simp only [floatDivMantExp, hq]
  rw [if_pos (show (0:ℤ) ≤ 52 - ((L:ℤ) - 1200) by omega)]
  have h1 : ((52 : ℤ) - ((L:ℤ) - 1200)).toNat = 1252 - L := by omega
  have h2 : (52 : ℤ) - ((L:ℤ) - 1200) = ((1252 - L : ℕ) : ℤ) := by omega
  rw [h1, h2]

theorem floatDivOverflows_false (m K : ℕ) (hm : m ≤ 2 ^ 53) (hK : 20 ≤ K) :
    floatDivOverflows (m, (K : ℤ)) = false := by
  unfold floatDivOverflows
  rw [if_pos (show (0:ℤ) ≤ 1024 + (K : ℤ) by omega)]
  simp only [decide_eq_false_iff_not, not_le]
  have ht : ((1024 : ℤ) + (K : ℤ)).toNat = 1024 + K := by omega
  rw [ht]
  calc m ≤ 2 ^ 53 := hm
    _ < 2 ^ (1024 + K) := Nat.pow_lt_pow_right (by norm_num) (by omega)

theorem dySplit_pos (m K : ℕ) (hK : 0 < K) :
    dySplit m (K : ℤ) = (m / 2 ^ K, m % 2 ^ K) := by
  unfold dySplit
  rw [if_neg (show ¬ (K : ℤ) ≤ 0 by omega)]
  norm_num

/-- The microsecond rounding of the value `r2 / 2^K` (first rounded to 53
bits, then half-even to an integer) lands within `2^K + 2^(K-33)` half-units
of the exact numerator. -/
theorem dyRound_close (r2 K : ℕ) (hK : 20 ≤ K) (hK2 : K ≤ 72)
    (hr : r2 < 2 ^ (K + 20)) :
    (2 * r2 : ℤ) ≤ 2 * (dyRoundHE (roundD53 r2 (K : ℤ))) * 2 ^ K +
      (2 ^ K + 2 ^ (K - 33)) ∧
    (2 * (dyRoundHE (roundD53 r2 (K : ℤ))) * 2 ^ K : ℤ) ≤ 2 * r2 +
      (2 ^ K + 2 ^ (K - 33)) := by
  by_cases hr0 : r2 = 0
  · subst hr0
    have h1 : roundD53 0 (K : ℤ) = (0, 0) := by
      unfold roundD53
      simp
    rw [h1]
    have h2 : dyRoundHE (0, 0) = 0 := by
      unfold dyRoundHE
      norm_num
    rw [h2]
    refine ⟨?_, ?_⟩ <;> (simp; positivity)
  · have hpos : 0 < r2 := Nat.pos_of_ne_zero hr0
    obtain ⟨hA, hB⟩ := ilog2_spec r2 hpos
      (lt_trans hr (Nat.pow_lt_pow_right (by norm_num) (by omega)))
    have hL2K : ilog2 r2 < K + 20 := by
      have h1 : 2 ^ ilog2 r2 < 2 ^ (K + 20) := lt_of_le_of_lt hA hr
      exact (Nat.pow_lt_pow_iff_right (by norm_num)).mp h1
    by_cases hd : ilog2 r2 ≤ 52
    · have hround : roundD53 r2 (K : ℤ) = (r2, (K : ℤ)) := by
        unfold roundD53
        rw [if_neg hr0, if_neg (show ¬ (0:ℤ) < (ilog2 r2 : ℤ) - 52 by omega)]
      rw [hround]
      have hdy : dyRoundHE (r2, (K : ℤ)) = rndHalfEven r2 (2 ^ K) := by
        unfold dyRoundHE
        rw [if_neg (show ¬ (K : ℤ) ≤ 0 by omega)]
        norm_num
      rw [hdy]
      obtain ⟨h1, h2⟩ := rndHalfEven_bounds r2 (2 ^ K) (Nat.pos_pow_of_pos K (by norm_num))
      push_cast at h1 h2
      have hnn : (0:ℤ) ≤ 2 ^ (K - 33) := by positivity
      constructor <;> linarith
    · have hD1 : 53 ≤ ilog2 r2 := by omega
      have hL2K19 : ilog2 r2 ≤ K + 19 := by omega
      have hround : roundD53 r2 (K : ℤ) =
          (rndHalfEven r2 (2 ^ (ilog2 r2 - 52)), ((K - (ilog2 r2 - 52) : ℕ) : ℤ)) := by
        unfold roundD53
        rw [if_neg hr0, if_pos (show (0:ℤ) < (ilog2 r2 : ℤ) - 52 by omega)]
        have ht1 : ((ilog2 r2 : ℤ) - 52).toNat = ilog2 r2 - 52 := by omega
        have ht2 : (K : ℤ) - ((ilog2 r2 : ℤ) - 52) = ((K - (ilog2 r2 - 52) : ℕ) : ℤ) := by
          omega
        rw [ht1, ht2]
      rw [hround]
      have hDK : ilog2 r2 - 52 ≤ K - 33 := by omega
      have hKD : 33 ≤ K - (ilog2 r2 - 52) := by omega
      have hdy : dyRoundHE
          (rndHalfEven r2 (2 ^ (ilog2 r2 - 52)), ((K - (ilog2 r2 - 52) : ℕ) : ℤ)) =
          rndHalfEven (rndHalfEven r2 (2 ^ (ilog2 r2 - 52)))
            (2 ^ (K - (ilog2 r2 - 52))) := by
        unfold dyRoundHE
        rw [if_neg (show ¬ ((K - (ilog2 r2 - 52) : ℕ) : ℤ) ≤ 0 by omega)]
        norm_num
      rw [hdy]
      obtain ⟨p1, p2⟩ := rndHalfEven_bounds r2 (2 ^ (ilog2 r2 - 52))
        (Nat.pos_pow_of_pos _ (by norm_num))
      obtain ⟨q1, q2⟩ := rndHalfEven_bounds (rndHalfEven r2 (2 ^ (ilog2 r2 - 52)))
        (2 ^ (K - (ilog2 r2 - 52)))
        (Nat.pos_pow_of_pos _ (by norm_num))
      push_cast at p1 p2 q1 q2
      have hpow : ((2:ℤ) ^ (K - (ilog2 r2 - 52))) * 2 ^ (ilog2 r2 - 52) = 2 ^ K := by
        rw [← pow_add]
        congr 1
        omega
      have hDle : ((2:ℤ) ^ (ilog2 r2 - 52)) ≤ 2 ^ (K - 33) := by
        have : (ilog2 r2 - 52) ≤ (K - 33) := hDK
        exact pow_le_pow_right (by norm_num) this
      have h2D : (0:ℤ) ≤ 2 ^ (ilog2 r2 - 52) := by positivity
      have hq1 := mul_le_mul_of_nonneg_right q1 h2D
      have hq2 := mul_le_mul_of_nonneg_right q2 h2D
      have hexp1 : (2 * (rndHalfEven (rndHalfEven r2 (2 ^ (ilog2 r2 - 52)))
            (2 ^ (K - (ilog2 r2 - 52))) : ℤ) * 2 ^ (K - (ilog2 r2 - 52)) +
            2 ^ (K - (ilog2 r2 - 52))) * 2 ^ (ilog2 r2 - 52) =
          2 * (rndHalfEven (rndHalfEven r2 (2 ^ (ilog2 r2 - 52)))
            (2 ^ (K - (ilog2 r2 - 52))) : ℤ) * 2 ^ K + 2 ^ K := by
        rw [add_mul, mul_assoc _ ((2:ℤ) ^ (K - (ilog2 r2 - 52))) (2 ^ (ilog2 r2 - 52)),
            hpow]
      have hexp2 : ((2 : ℤ) * (rndHalfEven (rndHalfEven r2 (2 ^ (ilog2 r2 - 52)))
            (2 ^ (K - (ilog2 r2 - 52))) : ℤ) * 2 ^ (K - (ilog2 r2 - 52))) *
            2 ^ (ilog2 r2 - 52) =
          2 * (rndHalfEven (rndHalfEven r2 (2 ^ (ilog2 r2 - 52)))
            (2 ^ (K - (ilog2 r2 - 52))) : ℤ) * 2 ^ K := by
        rw [mul_assoc _ ((2:ℤ) ^ (K - (ilog2 r2 - 52))) (2 ^ (ilog2 r2 - 52)), hpow]
      constructor
      · nlinarith [hq1, hexp1, p1, hDle]
      · nlinarith [hq2, hexp2, p2, hDle]

/-- Core exactness: when `a / 10^6` has floor-log2 at most 32 (encoded by the
scale `K = 52 - e ≥ 20`), the modf/multiply/round steps reconstruct exactly
`a` microseconds from the rounded mantissa `m`. -/
theorem pipeline_core (a K m : ℕ) (hK20 : 20 ≤ K) (hK72 : K ≤ 72)
    (hUp : (a : ℤ) * 2 ^ K < 1000000 * 2 ^ 53)
    (e1 : 2 * ((a : ℤ) * 2 ^ K) ≤ 2 * m * 1000000 + 1000000)
    (e2 : 2 * (m : ℤ) * 1000000 ≤ 2 * ((a : ℤ) * 2 ^ K) + 1000000) :
    m / 2 ^ K * 1000000 + dyRoundHE (roundD53 (m % 2 ^ K * 1000000) (K : ℤ)) = a ∧
    m ≤ 2 ^ 53 := by
  have hm53 : m ≤ 2 ^ 53 := by
    by_contra hcon
    push_neg at hcon
    have h1 : ((2:ℤ) ^ 53) + 1 ≤ (m : ℤ) := by exact_mod_cast hcon
    linarith
  have hdm : 2 ^ K * (m / 2 ^ K) + m % 2 ^ K = m :=
    Nat.div_add_mod m (2 ^ K)
  have hdmz : (2:ℤ) ^ K * (m / 2 ^ K : ℕ) + (m % 2 ^ K : ℕ) = (m : ℤ) := by
    exact_mod_cast hdm
  have hfr : m % 2 ^ K < 2 ^ K := Nat.mod_lt _ (Nat.pos_pow_of_pos K (by norm_num))
  have hfrz : ((m % 2 ^ K : ℕ) : ℤ) < 2 ^ K := by exact_mod_cast hfr
  have i1 : 2 * ((m % 2 ^ K : ℕ) : ℤ) * 1000000 ≤
      2 * ((a : ℤ) - (m / 2 ^ K : ℕ) * 1000000) * 2 ^ K + 1000000 := by
    nlinarith [e2, hdmz]
  have i2 : 2 * ((a : ℤ) - (m / 2 ^ K : ℕ) * 1000000) * 2 ^ K ≤
      2 * ((m % 2 ^ K : ℕ) : ℤ) * 1000000 + 1000000 := by
    nlinarith [e1, hdmz]
  have hfr20 : m % 2 ^ K * 1000000 < 2 ^ (K + 20) := by
    have h1 : m % 2 ^ K * 1000000 < 2 ^ K * 1000000 :=
      (Nat.mul_lt_mul_right (by norm_num)).mpr hfr
    have h2 : 2 ^ K * 1000000 < 2 ^ K * 2 ^ 20 :=
      (Nat.mul_lt_mul_left (Nat.pos_pow_of_pos K (by norm_num))).mpr (by norm_num)
    calc m % 2 ^ K * 1000000 < 2 ^ K * 1000000 := h1
      _ < 2 ^ K * 2 ^ 20 := h2
      _ = 2 ^ (K + 20) := by rw [← pow_add]
  obtain ⟨w1, w2⟩ := dyRound_close (m % 2 ^ K * 1000000) K hK20 hK72 hfr20
  simp only [Nat.cast_mul, Nat.cast_ofNat] at w1 w2
  have hb : (2:ℤ) ^ (K - 33) + 1000000 < 2 ^ K := by
    by_cases hk21 : 21 ≤ K
    · have hb1 : (2:ℤ) ^ (K - 33) ≤ 2 ^ (K - 1) :=
        pow_le_pow_right₀ (by norm_num) (by omega)
      have hb2 : (1000000 : ℤ) < 2 ^ (K - 1) := by
        calc (1000000 : ℤ) < 2 ^ 20 := by norm_num
          _ ≤ 2 ^ (K - 1) := pow_le_pow_right₀ (by norm_num) (by omega)
      have hb3 : (2:ℤ) ^ (K - 1) + 2 ^ (K - 1) = 2 ^ K := by
        rw [← two_mul, ← pow_succ']
        congr 1
        omega
      linarith
    · have hk20 : K = 20 := by omega
      subst hk20
      norm_num
  have hXpos : (0:ℤ) < 2 ^ K := by positivity
  have hwR : (dyRoundHE (roundD53 (m % 2 ^ K * 1000000) (K : ℤ)) : ℤ) =
      (a : ℤ) - (m / 2 ^ K : ℕ) * 1000000 := by
    by_contra hne
    rcases lt_or_gt_of_ne hne with hlt | hgt
    · have hle : (dyRoundHE (roundD53 (m % 2 ^ K * 1000000) (K : ℤ)) : ℤ) + 1 ≤
          (a : ℤ) - (m / 2 ^ K : ℕ) * 1000000 := by omega
      have hmul := mul_le_mul_of_nonneg_right hle (le_of_lt hXpos)
      nlinarith [w1, i2, hb, hmul]
    · have hle : (a : ℤ) - (m / 2 ^ K : ℕ) * 1000000 + 1 ≤
          (dyRoundHE (roundD53 (m % 2 ^ K * 1000000) (K : ℤ)) : ℤ) := by omega
      have hmul := mul_le_mul_of_nonneg_right hle (le_of_lt hXpos)
      nlinarith [w2, i1, hb, hmul]
  constructor
  · have hz : ((m / 2 ^ K * 1000000 +
        dyRoundHE (roundD53 (m % 2 ^ K * 1000000) (K : ℤ)) : ℕ) : ℤ) = (a : ℤ) := by
      simp only [Nat.cast_add, Nat.cast_mul, Nat.cast_ofNat]
      linarith [hwR]
    exact_mod_cast hz
  · exact hm53

/-- For `1 ≤ a ≤ 8·10^15` the float division cannot overflow and the whole
timedelta micro-second pipeline returns exactly `a`. -/
theorem absPipelineMicros_exact (a : ℕ) (ha1 : 1 ≤ a)
    (ha2 : a ≤ 8000000000000000) :
    absPipelineMicros a = a ∧ floatDivOverflows (floatDivMantExp a) = false := by
  have hx1 : 0 < a * 2 ^ 1200 / 1000000 := by
    apply Nat.div_pos ?_ (by norm_num)
    calc (1000000 : ℕ) ≤ 2 ^ 1200 := by
          calc (1000000 : ℕ) ≤ 2 ^ 20 := by norm_num
            _ ≤ 2 ^ 1200 := Nat.pow_le_pow_right (by norm_num) (by norm_num)
      _ ≤ a * 2 ^ 1200 := Nat.le_mul_of_pos_left _ ha1
  have hx2 : a * 2 ^ 1200 / 1000000 < 2 ^ 4400 := by
    have h1 : a * 2 ^ 1200 / 1000000 ≤ a * 2 ^ 1200 := Nat.div_le_self _ _
    have h2 : a * 2 ^ 1200 < 2 ^ 53 * 2 ^ 1200 := by
      have ha53 : a < 2 ^ 53 := by
        calc a ≤ 8000000000000000 := ha2
          _ < 2 ^ 53 := by norm_num
      exact (Nat.mul_lt_mul_right (Nat.pos_pow_of_pos _ (by norm_num))).mpr ha53
    calc a * 2 ^ 1200 / 1000000 ≤ a * 2 ^ 1200 := h1
      _ < 2 ^ 53 * 2 ^ 1200 := h2
      _ = 2 ^ 1253 := by rw [← pow_add]
      _ < 2 ^ 4400 := Nat.pow_lt_pow_right (by norm_num) (by norm_num)
  obtain ⟨hL1, hL2⟩ := ilog2_spec (a * 2 ^ 1200 / 1000000) hx1 hx2
  have hA1 : 2 ^ ilog2 (a * 2 ^ 1200 / 1000000) * 1000000 ≤ a * 2 ^ 1200 :=
    (Nat.le_div_iff_mul_le (by norm_num)).mp hL1
  have hA2 : a * 2 ^ 1200 < 2 ^ (ilog2 (a * 2 ^ 1200 / 1000000) + 1) * 1000000 :=
    (Nat.div_lt_iff_lt_mul (by norm_num)).mp hL2
  have hL_lo : 1180 ≤ ilog2 (a * 2 ^ 1200 / 1000000) := by
    by_contra hcon
    push_neg at hcon
    have h1 : a * 2 ^ 1200 <
        2 ^ (ilog2 (a * 2 ^ 1200 / 1000000) + 1) * 2 ^ 20 := by
      calc a * 2 ^ 1200 < 2 ^ (ilog2 (a * 2 ^ 1200 / 1000000) + 1) * 1000000 := hA2
        _ ≤ 2 ^ (ilog2 (a * 2 ^ 1200 / 1000000) + 1) * 2 ^ 20 :=
          Nat.mul_le_mul_left _ (by norm_num)
    rw [← pow_add] at h1
    have h2 : (2:ℕ) ^ 1200 ≤ a * 2 ^ 1200 := Nat.le_mul_of_pos_left _ ha1
    have h3 : (2:ℕ) ^ 1200 < 2 ^ (ilog2 (a * 2 ^ 1200 / 1000000) + 1 + 20) :=
      lt_of_le_of_lt h2 h1
    have h4 := (Nat.pow_lt_pow_iff_right (by norm_num : 1 < 2)).mp h3
    omega
  have hL_hi : ilog2 (a * 2 ^ 1200 / 1000000) ≤ 1232 := by
    by_contra hcon
    push_neg at hcon
    have h1 : 2 ^ ilog2 (a * 2 ^ 1200 / 1000000) * 1000000 ≤
        8000000000000000 * 2 ^ 1200 :=
      le_trans hA1 (Nat.mul_le_mul_right _ ha2)
    have h2 : (8000000000000000 : ℕ) * 2 ^ 1200 < 2 ^ 1233 * 1000000 := by
      have hlit : (8000000000000000 : ℕ) * 2 ^ 1200 < (1000000 * 2 ^ 33) * 2 ^ 1200 := by
        exact (Nat.mul_lt_mul_right (Nat.pos_pow_of_pos _ (by norm_num))).mpr (by norm_num)
      calc (8000000000000000 : ℕ) * 2 ^ 1200 < (1000000 * 2 ^ 33) * 2 ^ 1200 := hlit
        _ = 2 ^ 1233 * 1000000 := by
          rw [mul_assoc, ← pow_add]
          exact mul_comm _ _
    have h3 : 2 ^ ilog2 (a * 2 ^ 1200 / 1000000) * 1000000 <
        2 ^ 1233 * 1000000 := lt_of_le_of_lt h1 h2
    have h4 : (2:ℕ) ^ ilog2 (a * 2 ^ 1200 / 1000000) < 2 ^ 1233 :=
      Nat.lt_of_mul_lt_mul_right h3
    have h5 := (Nat.pow_lt_pow_iff_right (by norm_num : 1 < 2)).mp h4
    omega
  have hmant := floatDivMantExp_eq a (ilog2 (a * 2 ^ 1200 / 1000000)) rfl (by omega)
  have hK20 : 20 ≤ 1252 - ilog2 (a * 2 ^ 1200 / 1000000) := by omega
  have hK72 : 1252 - ilog2 (a * 2 ^ 1200 / 1000000) ≤ 72 := by omega
  have hKsum : ilog2 (a * 2 ^ 1200 / 1000000) +
      (1252 - ilog2 (a * 2 ^ 1200 / 1000000)) = 1252 := by omega
  -- the scaled numerator bound: a * 2^K < 10^6 * 2^53
  have hUpN : a * 2 ^ (1252 - ilog2 (a * 2 ^ 1200 / 1000000)) < 1000000 * 2 ^ 53 := by
    have h1 : a * 2 ^ (1252 - ilog2 (a * 2 ^ 1200 / 1000000)) * 2 ^ 1200 <
        1000000 * 2 ^ 53 * 2 ^ 1200 := by
      have h2 : a * 2 ^ 1200 * 2 ^ (1252 - ilog2 (a * 2 ^ 1200 / 1000000)) <
          2 ^ (ilog2 (a * 2 ^ 1200 / 1000000) + 1) * 1000000 *
            2 ^ (1252 - ilog2 (a * 2 ^ 1200 / 1000000)) :=
        (Nat.mul_lt_mul_right (Nat.pos_pow_of_pos _ (by norm_num))).mpr hA2
      have h3 : 2 ^ (ilog2 (a * 2 ^ 1200 / 1000000) + 1) * 1000000 *
            2 ^ (1252 - ilog2 (a * 2 ^ 1200 / 1000000)) =
          1000000 * 2 ^ 53 * 2 ^ 1200 := by
        rw [mul_comm (2 ^ (ilog2 (a * 2 ^ 1200 / 1000000) + 1)) (1000000 : ℕ),
            mul_assoc, mul_assoc, ← pow_add, ← pow_add]
        congr 1
        congr 1
        omega
      calc a * 2 ^ (1252 - ilog2 (a * 2 ^ 1200 / 1000000)) * 2 ^ 1200 =
            a * 2 ^ 1200 * 2 ^ (1252 - ilog2 (a * 2 ^ 1200 / 1000000)) := by ring
        _ < 2 ^ (ilog2 (a * 2 ^ 1200 / 1000000) + 1) * 1000000 *
              2 ^ (1252 - ilog2 (a * 2 ^ 1200 / 1000000)) := h2
        _ = 1000000 * 2 ^ 53 * 2 ^ 1200 := h3
    exact Nat.lt_of_mul_lt_mul_right h1
  obtain ⟨e1N, e2N⟩ := rndHalfEven_bounds
    (a * 2 ^ (1252 - ilog2 (a * 2 ^ 1200 / 1000000))) 1000000 (by norm_num)
  have hcore := pipeline_core a (1252 - ilog2 (a * 2 ^ 1200 / 1000000))
    (rndHalfEven (a * 2 ^ (1252 - ilog2 (a * 2 ^ 1200 / 1000000))) 1000000)
    hK20 hK72
    (by exact_mod_cast hUpN)
    (by
      simp only [Nat.cast_mul, Nat.cast_pow, Nat.cast_ofNat] at e1N
      convert e1N using 2 <;> norm_num)
    (by
      simp only [Nat.cast_mul, Nat.cast_pow, Nat.cast_ofNat] at e2N
      convert e2N using 2 <;> norm_num)
  constructor
  · unfold absPipelineMicros
    rw [hmant]
    simp only
    rw [dySplit_pos _ _ (by omega)]
    simp only
    exact hcore.1
  · rw [hmant]
    exact floatDivOverflows_false _ _ hcore.2 hK20

/-- For `0 ≤ n ≤ 8·10^15` the timedelta built from the float seconds holds
exactly `n` microseconds. -/
theorem decodeMicros_exact (n : ℤ) (h0 : 0 ≤ n) (hle : n ≤ 8000000000000000) :
    decodeMicros n = some n := by
  by_cases hz : n = 0
  · subst hz
    rfl
  · have ha1 : 1 ≤ n.natAbs := by omega
    have ha2 : n.natAbs ≤ 8000000000000000 := by omega
    obtain ⟨hp, hov⟩ := absPipelineMicros_exact n.natAbs ha1 ha2
    unfold decodeMicros
    rw [if_neg hz]
    simp only [hov, Bool.false_eq_true, if_false]
    rw [if_neg (show ¬ n < 0 by omega)]
    rw [hp]
    congr 1
    omega

/-- Claim C4 (confirmed): the timestamp decoder is total and returns the
original string unchanged on every failure: unparsable input (including the
empty string) and out-of-range results (overflow) fall back to the input. -/
theorem claim_C4_total_fallback :
    (∀ raw : String, pyParseInt raw = none → convert_webkit_timestamp raw = raw) ∧
    (∀ (raw : String) (n : Int), pyParseInt raw = some n → webkitFormat n = none →
        convert_webkit_timestamp raw = raw) ∧
    convert_webkit_timestamp "not_a_number" = "not_a_number" ∧
    convert_webkit_timestamp "" = "" := by
  refine ⟨?_, ?_, rfl, rfl⟩
  · intro raw h
    simp [convert_webkit_timestamp, h]
  · intro raw n h1 h2
    simp [convert_webkit_timestamp, h1, h2]

theorem claim_C4_witness :
    convert_webkit_timestamp "99999999999999999999999999999999" =
      "99999999999999999999999999999999" :=
  claim_C4_total_fallback.2.1 "99999999999999999999999999999999"
    99999999999999999999999999999999 rfl rfl

/-- Claim C5 is false on the code as stated: `int / 1_000_000` is binary64
float division, and for `n = 199999999999999999` (year 7938) the quotient
rounds up across a second boundary, so the printed time is one second later
than the exact `n / 10^6` seconds after the epoch. -/
theorem claim_C5_counterexample :
    pyParseInt "199999999999999999" = some 199999999999999999 ∧
    convert_webkit_timestamp "199999999999999999" = "7938-10-01 19:33:20" ∧
    specDecodeExact 199999999999999999 = "7938-10-01 19:33:19" ∧
    convert_webkit_timestamp "199999999999999999" ≠
      specDecodeExact 199999999999999999 := by
  refine ⟨rfl, rfl, rfl, ?_⟩
  intro h
  rw [show convert_webkit_timestamp "199999999999999999" =
        "7938-10-01 19:33:20" from rfl,
      show specDecodeExact 199999999999999999 = "7938-10-01 19:33:19" from rfl] at h
  exact absurd h (by decide)

/-- Claim C5 (corrected): for every string that parses as a base-10 integer
`n` with `0 ≤ n ≤ 8·10^15` (dates through the year 1854) the decoder returns
exactly the date-time `n / 1_000_000` seconds after 1601-01-01T00:00:00,
formatted `YYYY-MM-DD HH:MM:SS`; in particular `decode("0")` is
`1601-01-01 00:00:00`.  For larger in-range `n` the binary64 division may
shift the reported time by up to a second, and an out-of-range result
returns the input unchanged. -/
theorem claim_C5_amended (raw : String) (n : ℤ) (hp : pyParseInt raw = some n)
    (h0 : 0 ≤ n) (hle : n ≤ 8000000000000000) :
    convert_webkit_timestamp raw = specDecodeExact n ∧
    convert_webkit_timestamp "0" = "1601-01-01 00:00:00" := by
  constructor
  · have hwf : webkitFormat n =
        some (formatMicros ((epochShiftMicros : ℤ) + n).toNat) := by
      unfold webkitFormat
      rw [decodeMicros_exact n h0 hle]
      show (if 0 ≤ (epochShiftMicros : ℤ) + n ∧
            (epochShiftMicros : ℤ) + n < (maxMicros : ℤ)
          then some (formatMicros ((epochShiftMicros : ℤ) + n).toNat) else none) =
        some (formatMicros ((epochShiftMicros : ℤ) + n).toNat)
      rw [if_pos ?_]
      constructor
      · unfold epochShiftMicros
        push_cast
        omega
      · unfold epochShiftMicros maxMicros
        push_cast
        omega
    simp only [convert_webkit_timestamp, hp, hwf]
    rfl
  · rfl

theorem claim_C5_amended_witness :
    convert_webkit_timestamp "1000000" = specDecodeExact 1000000 :=
  (claim_C5_amended "1000000" 1000000 rfl (by norm_num) (by norm_num)).1
